import Mathlib

/-!
Verification of the synchronization engine of `file_sync.py` (ftp-sync-ci).

Paths are embedded as lists of characters (`Str`) and, once parsed by
`pathlib.Path`, as lists of components (`SPath`).  The tool runs on a
POSIX system, so `os.sep = '/'` and `str.replace(os.sep, '/')` is the
identity.  Timestamps (`time.time()`) are embedded as rationals so that
the quiet period `0.5` and the grace window `10.0` are exact.
-/

namespace FileSync

/-- A Python string, embedded as its list of characters. -/
abbrev Str := List Char

/-- A parsed filesystem path: the list of its components
(`pathlib.PurePath.parts` without the leading root entry). -/
abbrev SPath := List Str

/-- The POSIX path separator `os.sep`. -/
def sep : Char := '/'

/-- Python `str.split(os.sep)`: cut a character list at every separator,
keeping empty pieces. -/
def splitSeg : Str → List Str
  | [] => [[]]
  | c :: cs =>
    match splitSeg cs with
    | [] => [[]]
    | s :: ss => if c = sep then [] :: s :: ss else (c :: s) :: ss

/-- Join components with single separators (`'/'.join`). -/
def joinSep : List Str → Str
  | [] => []
  | [s] => s
  | s :: rest => s ++ sep :: joinSep rest

/-- Render an absolute `pathlib` path from its components:
`str(Path('/', *parts))`. -/
def renderAbs (parts : SPath) : Str := sep :: joinSep parts

/-- Render a relative `pathlib` path: `str(Path(*parts))`, which is `'.'`
for an empty component list. -/
def relStr (r : SPath) : Str := if r = [] then ['.'] else joinSep r

/-- Components `pathlib` extracts from a raw string: empty pieces (repeated
or trailing separators) and `'.'` pieces are dropped. -/
def parseParts (s : Str) : SPath :=
  (splitSeg s).filter (fun x => decide (x ≠ []) && decide (x ≠ ['.']))

/-- `Path(p).relative_to(root)` on parsed components: the component list of
`root` must be a prefix of that of `p`; otherwise Python raises
`ValueError`, embedded as `none`. -/
def pyRelativeTo (p root : SPath) : Option SPath :=
  if p.take root.length = root then some (p.drop root.length) else none

/-- POSIX `os.path.join(a, b)` for a relative-or-absolute second operand. -/
def osJoin (a b : Str) : Str :=
  if b.head? = some sep then b
  else if a = [] ∨ a.getLast? = some sep then a ++ b
  else a ++ [sep] ++ b

/-- A component as produced by a normalized absolute `pathlib` path:
non-empty, separator-free and not the `'.'` marker. -/
def ValidSeg (s : Str) : Prop := s ≠ [] ∧ sep ∉ s ∧ s ≠ ['.']

instance (s : Str) : Decidable (ValidSeg s) := by
  unfold ValidSeg
  infer_instance

/-- All components of a parsed path are well formed. -/
def ValidSegs (p : SPath) : Prop := ∀ s ∈ p, ValidSeg s

instance (p : SPath) : Decidable (ValidSegs p) := by
  unfold ValidSegs
  infer_instance

/-- The slice of the configuration read by the engine: the resolved
`local_path` (parsed), the raw `remote_path` string, the ordered
`ignore_patterns`, and the two behaviour flags used by the handler. -/
structure SyncConfig where
  localRoot : SPath
  remotePath : Str
  ignorePatterns : List Str
  autoUpload : Bool
  autoDelete : Bool
deriving DecidableEq

/-- Python `str.endswith(suffix)`. -/
def endsWith (s suffix : Str) : Bool :=
  decide (s.drop (s.length - suffix.length) = suffix)

/-- The pattern loop of `FileSyncHandler.should_ignore` (file_sync.py
lines 338-344): a `*`-pattern matches when the relative path string ends
with the suffix after the `*`; any other pattern matches when it equals a
component of the relative path string split at `os.sep`.  The first match
returns `True`. -/
def ignoreLoop (relS : Str) : List Str → Bool
  | [] => false
  | pat :: rest =>
    if pat.head? = some '*' then
      if endsWith relS (pat.drop 1) then true else ignoreLoop relS rest
    else if pat ∈ splitSeg relS then true
    else ignoreLoop relS rest

/-- `FileSyncHandler.should_ignore` (lines 334-346).  The relativization
`Path(path).relative_to(self.local_path)` raises `ValueError` when the
path is not under the local root; the exception is embedded as `none`. -/
def should_ignore (cfg : SyncConfig) (p : SPath) : Option Bool :=
  (pyRelativeTo p cfg.localRoot).map (fun r => ignoreLoop (relStr r) cfg.ignorePatterns)

/-- `FileSyncHandler.get_remote_path` (lines 364-369): relativize to the
local root, `os.path.join` onto the remote root, replace `os.sep` by `'/'`
(the identity under POSIX).  Relativization failure is again `none`. -/
def get_remote_path (cfg : SyncConfig) (p : SPath) : Option Str :=
  (pyRelativeTo p cfg.localRoot).map (fun r => osJoin cfg.remotePath (relStr r))

/-! ### Transport delete (C2) -/

/-- Exceptions raised by the transport libraries. -/
inductive PyErr where
  | fileNotFound
  | errPerm
  | other
deriving DecidableEq

/-- `paramiko.SFTPClient.remove` against a server holding exactly the
files of `server`: removing an absent file raises `FileNotFoundError`. -/
def sftpRemove (server : List Str) (p : Str) : Except PyErr Unit :=
  if p ∈ server then Except.ok () else Except.error PyErr.fileNotFound

/-- `ftplib.FTP.delete` against the same server model: the server answers
`550` for an absent file and `ftplib` raises `error_perm`. -/
def ftpDeleteCmd (server : List Str) (p : Str) : Except PyErr Unit :=
  if p ∈ server then Except.ok () else Except.error PyErr.errPerm

/-- `SFTPUploader.delete` (lines 141-150): `FileNotFoundError` is treated
as success (already deleted); every other exception is logged and reported
as `False`. -/
def sftp_delete (server : List Str) (p : Str) : Bool :=
  match sftpRemove server p with
  | Except.ok _ => true
  | Except.error PyErr.fileNotFound => true
  | Except.error _ => false

/-- `FTPUploader.delete` (lines 258-265): any exception is logged and
reported as `False`. -/
def ftp_delete (server : List Str) (p : Str) : Bool :=
  match ftpDeleteCmd server p with
  | Except.ok _ => true
  | Except.error _ => false

/-! ### Spec-side ignore predicate and the download path translation -/

/-- Spec-side matching predicate (spec section 8): a wildcard pattern
`*suffix` matches when the relative path string ends with `suffix`; a
literal pattern matches when it equals some component of the relative
path.  Written from the spec's words, to be compared with `ignoreLoop`. -/
def matchesSpec (pat : Str) (rel : SPath) : Prop :=
  (pat.head? = some '*' ∧ endsWith (relStr rel) (pat.drop 1) = true) ∨
  (pat.head? ≠ some '*' ∧ pat ∈ rel)

instance (pat : Str) (rel : SPath) : Decidable (matchesSpec pat rel) := by
  unfold matchesSpec
  infer_instance

/-- Rendering of `str(Path(base) / r)` for an absolute base string and a
relative remainder `r`: pathlib parses both, concatenates the components
and renders.  The tool's `local_path` is an absolute directory (spec
section 3 invariant), so the result is rendered absolute. -/
def pyJoinLocal (base r : Str) : Str := renderAbs (parseParts base ++ parseParts r)

/-- The local-target computation inside `FileSyncTool.download_all_files`
(lines 481-494): slice off the remote base by string length, strip leading
slashes, and join the remainder onto the local base with pathlib. -/
def download_to_local (remoteBase localBase remoteFile : Str) : Str :=
  pyJoinLocal localBase ((remoteFile.drop remoteBase.length).dropWhile (fun c => c == sep))

/-! ### Scheduler and loop-guard state (`FileSyncHandler`) -/

/-- A `time.time()` timestamp, embedded as a rational so that the quiet
period `0.5` and the grace window `10.0` are exact. -/
abbrev Time := ℚ

/-- A Python dict keyed by paths: an insertion-ordered association list
whose keys are unique (the dict invariant). -/
abbrev PMap := List (SPath × Time)

/-- Dict lookup `d.get(k)`. -/
def dictGet (k : SPath) : PMap → Option Time
  | [] => none
  | e :: rest => if e.1 = k then some e.2 else dictGet k rest

/-- Dict assignment `d[k] = v`: update the (unique) matching key in place,
append a fresh key at the end. -/
def dictSet (k : SPath) (v : Time) : PMap → PMap
  | [] => [(k, v)]
  | e :: rest => if e.1 = k then (k, v) :: rest else e :: dictSet k v rest

/-- Dict deletion `del d[k]`. -/
def dictDel (k : SPath) : PMap → PMap
  | [] => []
  | e :: rest => if e.1 = k then rest else e :: dictDel k rest

/-- The mutable state of `FileSyncHandler` (lines 330-332):
`pending_uploads` and `_downloaded_paths`.  `upload_delay` is the fixed
constant `0.5`. -/
structure HandlerState where
  pending : PMap
  downloaded : PMap
deriving DecidableEq

/-- `FileSyncHandler.mark_as_downloaded` (lines 348-351): record the
resolved path with the current time.  `Path.resolve()` is the identity on
the already-normalized parsed paths used throughout the embedding. -/
def mark_as_downloaded (p : SPath) (now : Time) (st : HandlerState) : HandlerState :=
  HandlerState.mk st.pending (dictSet p now st.downloaded)

/-- `FileSyncHandler._is_recently_downloaded` (lines 353-362): a mark
within the `10.0` grace window stays in place and answers `True`; an
expired mark is evicted by the lookup itself, answering `False`.  Returns
the decision together with the updated mark table. -/
def isRecentlyDownloaded (p : SPath) (now : Time) (d : PMap) : Bool × PMap :=
  match dictGet p d with
  | none => (false, d)
  | some t => if now - t < 10 then (true, d) else (false, dictDel p d)

/-- `FileSyncHandler.schedule_upload` (lines 393-403): return unchanged
when `auto_upload` is off, when the path is ignored, or when the loop
guard reports a recent download; otherwise overwrite
`pending_uploads[path]` with the current time.  `should_ignore` may raise
(`none`), which propagates. -/
def schedule_upload (cfg : SyncConfig) (st : HandlerState) (p : SPath) (now : Time) :
    Option HandlerState :=
  if cfg.autoUpload = false then some st
  else
    match should_ignore cfg p with
    | none => none
    | some true => some st
    | some false =>
      match isRecentlyDownloaded p now st.downloaded with
      | (true, d2) => some (HandlerState.mk st.pending d2)
      | (false, d2) => some (HandlerState.mk (dictSet p now st.pending) d2)

/-- The drain loop of `process_pending_uploads` (lines 410-413): one pass
over a snapshot of the dict, collecting (and removing) every entry whose
recorded time is at least `upload_delay = 0.5` in the past. -/
def drainScan (now : Time) : PMap → List SPath × PMap
  | [] => ([], [])
  | e :: rest =>
    let r := drainScan now rest
    if (1 : ℚ)/2 ≤ now - e.2 then (e.1 :: r.1, r.2) else (r.1, (e.1, e.2) :: r.2)

/-- The upload loop of `process_pending_uploads` (lines 415-423): drained
paths still existing on disk are uploaded to their translated remote path
(`get_remote_path` may raise); missing paths are silently skipped.
Returns the `(local, remote)` pairs handed to `Transport.upload`. -/
def uploadsFor (cfg : SyncConfig) (ex : SPath → Bool) : List SPath → Option (List (SPath × Str))
  | [] => some []
  | p :: ps =>
    if ex p then
      match get_remote_path cfg p with
      | none => none
      | some r => (uploadsFor cfg ex ps).map (fun l => (p, r) :: l)
    else uploadsFor cfg ex ps

/-- `FileSyncHandler.process_pending_uploads` (lines 405-423); `ex` models
`os.path.exists` at drain time.  The loop-guard table is not consulted. -/
def process_pending_uploads (cfg : SyncConfig) (st : HandlerState) (now : Time)
    (ex : SPath → Bool) : Option (List (SPath × Str) × HandlerState) :=
  match uploadsFor cfg ex (drainScan now st.pending).1 with
  | none => none
  | some ups => some (ups, HandlerState.mk (drainScan now st.pending).2 st.downloaded)

/-- Number of entries of a dict carried by one key. -/
def countKey (k : SPath) (m : PMap) : Nat :=
  (m.filter (fun e => decide (e.1 = k))).length

/-! ### The local tree walk of `sync_all_files` (C8) -/

/-- A local file tree: named files and named directories with entries. -/
inductive FSTree where
  | file (name : Str)
  | dir (name : Str) (children : List FSTree)

/-- The per-directory file loop of `sync_all_files` (lines 465-470):
upload every file of the visited directory that the ignore filter does
not reject. -/
def filesPass (ig : SPath → Bool) (root : SPath) (entries : List FSTree) : List SPath :=
  entries.filterMap (fun t =>
    match t with
    | FSTree.file n => if ig (root ++ [n]) then none else some (root ++ [n])
    | FSTree.dir _ _ => none)

/-- The descent of `os.walk` after the in-place pruning
`dirs[:] = [d for d in dirs if not should_ignore(...)]` (line 463): an
ignored directory is removed before being walked, so nothing under it is
visited; each surviving directory contributes its own file pass and then
its own descent. -/
def walkDirs (ig : SPath → Bool) : SPath → List FSTree → List SPath
  | _, [] => []
  | root, FSTree.file _ :: rest => walkDirs ig root rest
  | root, FSTree.dir n c :: rest =>
    (if ig (root ++ [n]) then []
     else filesPass ig (root ++ [n]) c ++ walkDirs ig (root ++ [n]) c)
      ++ walkDirs ig root rest

/-- Top-down `os.walk` with upload: the files of the walked directory
first, then the surviving subdirectories in order. -/
def osWalkUpload (ig : SPath → Bool) (root : SPath) (entries : List FSTree) : List SPath :=
  filesPass ig root entries ++ walkDirs ig root entries

/-- `FileSyncTool.sync_all_files` (lines 456-472): walk the local tree
from the local root.  Every path handed to `should_ignore` extends the
local root, so the relativization inside it cannot raise there; the test
`should_ignore = some true` is exactly the source's pruning decision. -/
def sync_all_files (cfg : SyncConfig) (tree : List FSTree) : List SPath :=
  osWalkUpload (fun p => decide (should_ignore cfg p = some true)) cfg.localRoot tree

/-- Spec-side: the name of each plain file of a directory, as a
single-component relative path. -/
def fileNames (entries : List FSTree) : List SPath :=
  entries.filterMap (fun t =>
    match t with
    | FSTree.file n => some [n]
    | FSTree.dir _ _ => none)

/-- Spec-side: the relative paths of all files strictly below the current
directory (through at least one subdirectory). -/
def subFiles : List FSTree → List SPath
  | [] => []
  | FSTree.file _ :: rest => subFiles rest
  | FSTree.dir n c :: rest =>
    (fileNames c ++ subFiles c).map (fun s => n :: s) ++ subFiles rest

/-- Spec-side: every file in the tree, by its path relative to the walk
root, in walk order. -/
def filesUnder (entries : List FSTree) : List SPath := fileNames entries ++ subFiles entries

/-- Spec-side: no directory strictly between the walk root and the file
is ignored. -/
def dirsClear (ig : SPath → Bool) : SPath → SPath → Bool
  | _, [] => true
  | root, d :: rest =>
    if rest = [] then true else !ig (root ++ [d]) && dirsClear ig (root ++ [d]) rest

/-- Spec-side: a file of the tree (by its relative path) is uploaded iff
none of its ancestor directories is ignored and the file itself is not
ignored. -/
def fileKept (ig : SPath → Bool) (root : SPath) (s : SPath) : Bool :=
  dirsClear ig root s && !ig (root ++ s)

/-! ### Concrete configuration used for the C1 evaluation -/

/-- Configuration with local root `/proj`, used to evaluate the handler on
a notified path outside that root. -/
def cfgProj : SyncConfig :=
  ⟨["proj".toList], "/srv/proj".toList, [], true, true⟩

/-- The parsed form of the notified path `/other/x.txt`, which is not
under the local root `/proj`. -/
def pOutside : SPath := ["other".toList, "x.txt".toList]

/-- C1: a change or delete notification for a path outside the configured
local root makes `should_ignore` and `get_remote_path` raise (the embedded
`none`), so the exception propagates to the watch callback instead of the
path being skipped with a warning. -/
theorem should_ignore_outside_root_none :
    should_ignore cfgProj pOutside = none ∧ get_remote_path cfgProj pOutside = none := by
  decide

/-- C2 counterexample: with an empty server, deleting the absent file
`/a` returns success on the SFTP variant but failure on the FTP variant,
so the two variants do not both report success. -/
theorem ftp_delete_absent_false_at_input :
    sftp_delete [] "/a".toList = true ∧ ftp_delete [] "/a".toList = false := by
  decide

/-- C2 amended: for every remote path absent from the server, the SFTP
variant reports success while the FTP variant catches the resulting
`error_perm` and reports failure. -/
theorem delete_absent_variants (server : List Str) (p : Str) (h : p ∉ server) :
    sftp_delete server p = true ∧ ftp_delete server p = false := by
  constructor
  · simp [sftp_delete, sftpRemove, h]
  · simp [ftp_delete, ftpDeleteCmd, h]

/-- Witness for the amended C2 statement at a concrete absent path. -/
theorem delete_absent_variants_witness :
    sftp_delete ["/b".toList] "/a".toList = true ∧
      ftp_delete ["/b".toList] "/a".toList = false :=
  delete_absent_variants ["/b".toList] "/a".toList (by decide)

/-- C9: if the bare wildcard `*` is among the configured patterns then
every path under the local root is ignored, because every relative path
string ends with the empty suffix. -/
theorem star_matches_all (cfg : SyncConfig) (p : SPath) (r : SPath)
    (hstar : ['*'] ∈ cfg.ignorePatterns)
    (hrel : pyRelativeTo p cfg.localRoot = some r) :
    should_ignore cfg p = some true := by
  have hloop : ∀ pats : List Str, ['*'] ∈ pats → ignoreLoop (relStr r) pats = true := by
    intro pats hmem
    induction pats with
    | nil => cases hmem
    | cons pat rest ih =>
      rcases List.mem_cons.mp hmem with hpat | hrest
      · subst hpat
        have hsuf : endsWith (relStr r) ([] : Str) = true := by
          simp [endsWith, List.drop_length]
        simp [ignoreLoop, hsuf]
      · simp only [ignoreLoop]
        split
        · split
          · rfl
          · exact ih hrest
        · split
          · rfl
          · exact ih hrest
  simp [should_ignore, hrel, hloop cfg.ignorePatterns hstar]

/-- Witness for C9: with patterns `[".git", "*"]` the path `/proj/a.txt`
under root `/proj` is ignored. -/
theorem star_matches_all_witness :
    should_ignore ⟨["proj".toList], "/srv/proj".toList, [".git".toList, "*".toList], true, true⟩
      ["proj".toList, "a.txt".toList] = some true :=
  star_matches_all _ _ ["a.txt".toList] (by decide) (by decide)

/-! ### Lemmas about splitting and joining path strings -/

theorem splitSeg_ne_nil (s : Str) : splitSeg s ≠ [] := by
  induction s with
  | nil => simp [splitSeg]
  | cons c cs ih =>
    simp only [splitSeg]
    cases h : splitSeg cs with
    | nil => simp
    | cons a as => by_cases hc : c = sep <;> simp [hc]

theorem splitSeg_no_sep (s : Str) (h : sep ∉ s) : splitSeg s = [s] := by
  induction s with
  | nil => rfl
  | cons c cs ih =>
    have hc : ¬c = sep := by
      intro e
      exact h (by simp [e])
    have hcs : sep ∉ cs := fun m => h (List.mem_cons_of_mem _ m)
    simp only [splitSeg, ih hcs]
    simp [hc]

theorem splitSeg_cons_sep (t : Str) : splitSeg (sep :: t) = [] :: splitSeg t := by
  simp only [splitSeg]
  cases h : splitSeg t with
  | nil => exact absurd h (splitSeg_ne_nil t)
  | cons a as => simp

theorem splitSeg_cons_of_ne (c : Char) (t : Str) (a : Str) (as : List Str)
    (hc : ¬c = sep) (h : splitSeg t = a :: as) :
    splitSeg (c :: t) = (c :: a) :: as := by
  simp only [splitSeg, h]
  simp [hc]

theorem splitSeg_append_sep (xs ys : Str) (h : sep ∉ xs) :
    splitSeg (xs ++ sep :: ys) = xs :: splitSeg ys := by
  induction xs with
  | nil => simpa using splitSeg_cons_sep ys
  | cons c cs ih =>
    have hc : ¬c = sep := by
      intro e
      exact h (by simp [e])
    have hcs : sep ∉ cs := fun m => h (List.mem_cons_of_mem _ m)
    exact splitSeg_cons_of_ne c (cs ++ sep :: ys) cs (splitSeg ys) hc (ih hcs)

theorem splitSeg_joinSep (segs : SPath) (h : ValidSegs segs) (hne : segs ≠ []) :
    splitSeg (joinSep segs) = segs := by
  induction segs with
  | nil => exact absurd rfl hne
  | cons s rest ih =>
    cases rest with
    | nil =>
      have hs : sep ∉ s := (h s (by simp)).2.1
      simpa [joinSep] using splitSeg_no_sep s hs
    | cons s2 rest2 =>
      have hs : sep ∉ s := (h s (by simp)).2.1
      have hrest : ValidSegs (s2 :: rest2) := fun x hx => h x (List.mem_cons_of_mem _ hx)
      have : joinSep (s :: s2 :: rest2) = s ++ sep :: joinSep (s2 :: rest2) := rfl
      rw [this, splitSeg_append_sep _ _ hs, ih hrest (by simp)]

theorem joinSep_ne_nil (segs : SPath) (h : ValidSegs segs) (hne : segs ≠ []) :
    joinSep segs ≠ [] := by
  cases segs with
  | nil => exact absurd rfl hne
  | cons s rest =>
    cases rest with
    | nil => exact (h s (by simp)).1
    | cons s2 rest2 =>
      show s ++ sep :: joinSep (s2 :: rest2) ≠ []
      simp

theorem joinSep_head_ne_sep (segs : SPath) (h : ValidSegs segs) (hne : segs ≠ []) :
    (joinSep segs).head? ≠ some sep := by
  cases segs with
  | nil => exact absurd rfl hne
  | cons s rest =>
    have hs : ValidSeg s := h s (by simp)
    obtain ⟨a, s', rfl⟩ : ∃ a s', s = a :: s' := by
      cases s with
      | nil => exact absurd rfl hs.1
      | cons a s' => exact ⟨a, s', rfl⟩
    have ha : a ≠ sep := by
      intro e
      exact hs.2.1 (by simp [e])
    cases rest with
    | nil => simpa [joinSep] using ha
    | cons s2 rest2 =>
      show ((a :: s') ++ sep :: joinSep (s2 :: rest2)).head? ≠ some sep
      simpa using ha

theorem getLast_append_right (xs ys : Str) (h : ys ≠ []) :
    (xs ++ ys).getLast? = ys.getLast? := by
  rcases List.eq_nil_or_concat ys with rfl | ⟨t, a, rfl⟩
  · exact absurd rfl h
  · rw [List.concat_eq_append, ← List.append_assoc, List.getLast?_concat,
      List.getLast?_concat]

theorem joinSep_getLast_ne_sep (segs : SPath) (h : ValidSegs segs) (hne : segs ≠ []) :
    (joinSep segs).getLast? ≠ some sep := by
  induction segs with
  | nil => exact absurd rfl hne
  | cons s rest ih =>
    cases rest with
    | nil =>
      show (joinSep [s]).getLast? ≠ some sep
      intro hcon
      have hmem : sep ∈ joinSep [s] := List.mem_of_getLast?_eq_some hcon
      exact (h s (by simp)).2.1 (by simpa [joinSep] using hmem)
    | cons s2 rest2 =>
      have hrest : ValidSegs (s2 :: rest2) := fun x hx => h x (List.mem_cons_of_mem _ hx)
      have hjoin : joinSep (s :: s2 :: rest2) = s ++ sep :: joinSep (s2 :: rest2) := rfl
      have hne2 : joinSep (s2 :: rest2) ≠ [] := joinSep_ne_nil _ hrest (by simp)
      rw [hjoin, getLast_append_right s _ (by simp)]
      have h2 : (sep :: joinSep (s2 :: rest2)).getLast? = (joinSep (s2 :: rest2)).getLast? :=
        getLast_append_right [sep] _ hne2
      rw [h2]
      exact ih hrest (by simp)

theorem parseParts_joinSep (segs : SPath) (h : ValidSegs segs) :
    parseParts (joinSep segs) = segs := by
  cases hs : segs with
  | nil => rfl
  | cons s rest =>
    rw [← hs]
    rw [parseParts, splitSeg_joinSep segs h (by rw [hs]; simp)]
    refine List.filter_eq_self.mpr ?_
    intro x hx
    have := h x hx
    simp [this.1, this.2.2]

theorem parseParts_renderAbs (segs : SPath) (h : ValidSegs segs) :
    parseParts (renderAbs segs) = segs := by
  rw [renderAbs]
  cases hs : segs with
  | nil => rfl
  | cons s rest =>
    rw [← hs, parseParts, splitSeg_cons_sep, List.filter]
    have hjoin : splitSeg (joinSep segs) = segs :=
      splitSeg_joinSep segs h (by rw [hs]; simp)
    rw [hjoin]
    have : (decide (([] : Str) ≠ []) && decide (([] : Str) ≠ ['.'])) = false := by decide
    rw [this]
    refine List.filter_eq_self.mpr ?_
    intro x hx
    have := h x hx
    simp [this.1, this.2.2]

theorem pyRelativeTo_append (root rel : SPath) :
    pyRelativeTo (root ++ rel) root = some rel := by
  simp [pyRelativeTo, List.take_left, List.drop_left]

theorem dropWhile_head_ne (l : Str) (h : l.head? ≠ some sep) :
    l.dropWhile (fun c => c == sep) = l := by
  cases l with
  | nil => rfl
  | cons a t =>
    have ha : ¬(a = sep) := by
      intro e
      exact h (by simp [e])
    simp [List.dropWhile_cons, ha]

/-! ### C4 and C3 -/

theorem ignoreLoop_iff (rel : SPath) (pats : List Str)
    (hsplit : splitSeg (relStr rel) = rel) :
    ∀ b, ignoreLoop (relStr rel) pats = b →
      (b = true ↔ ∃ pat ∈ pats, matchesSpec pat rel) := by
  induction pats with
  | nil =>
    intro b hb
    simp only [ignoreLoop] at hb
    subst hb
    simp
  | cons pat rest ih =>
    intro b hb
    simp only [ignoreLoop] at hb
    by_cases hstar : pat.head? = some '*'
    · rw [if_pos hstar] at hb
      by_cases hsuf : endsWith (relStr rel) (pat.drop 1) = true
      · rw [if_pos hsuf] at hb
        subst hb
        simp only [true_iff]
        exact ⟨pat, by simp, Or.inl ⟨hstar, hsuf⟩⟩
      · rw [if_neg hsuf] at hb
        have hrec := ih b hb
        rw [hrec]
        constructor
        · rintro ⟨q, hq, hm⟩
          exact ⟨q, List.mem_cons_of_mem _ hq, hm⟩
        · rintro ⟨q, hq, hm⟩
          rcases List.mem_cons.mp hq with rfl | hq2
          · rcases hm with ⟨_, hsuf2⟩ | ⟨hns, _⟩
            · exact absurd hsuf2 hsuf
            · exact absurd hstar hns
          · exact ⟨q, hq2, hm⟩
    · rw [if_neg hstar] at hb
      by_cases hmem : pat ∈ splitSeg (relStr rel)
      · rw [if_pos hmem] at hb
        subst hb
        simp only [true_iff]
        rw [hsplit] at hmem
        exact ⟨pat, by simp, Or.inr ⟨hstar, hmem⟩⟩
      · rw [if_neg hmem] at hb
        have hrec := ih b hb
        rw [hrec]
        constructor
        · rintro ⟨q, hq, hm⟩
          exact ⟨q, List.mem_cons_of_mem _ hq, hm⟩
        · rintro ⟨q, hq, hm⟩
          rcases List.mem_cons.mp hq with rfl | hq2
          · rcases hm with ⟨hstar2, _⟩ | ⟨_, hmem2⟩
            · exact absurd hstar2 hstar
            · rw [← hsplit] at hmem2
              exact absurd hmem2 hmem
          · exact ⟨q, hq2, hm⟩

theorem ignoreLoop_eq_decide (rel : SPath) (pats : List Str)
    (hsplit : splitSeg (relStr rel) = rel) :
    ignoreLoop (relStr rel) pats = decide (∃ pat ∈ pats, matchesSpec pat rel) := by
  cases hb : ignoreLoop (relStr rel) pats with
  | true =>
    have := (ignoreLoop_iff rel pats hsplit true hb).mp rfl
    exact (decide_eq_true this).symm
  | false =>
    have hnot : ¬∃ pat ∈ pats, matchesSpec pat rel := by
      intro hex
      have := (ignoreLoop_iff rel pats hsplit false hb).mpr hex
      exact Bool.false_ne_true this
    exact (decide_eq_false hnot).symm

theorem relStr_split (rel : SPath) (hv : ValidSegs rel) (hne : rel ≠ []) :
    splitSeg (relStr rel) = rel := by
  rw [relStr, if_neg hne]
  exact splitSeg_joinSep rel hv hne

/-- C4: for a path under the local root, `should_ignore` returns exactly
the decision of the spec predicate (a wildcard `*suffix` matches iff the
relative path string ends with `suffix`; a literal pattern matches iff it
equals some path component; matching is case-sensitive as the characters
are compared for equality), and the answer is invariant under permuting
the pattern list. -/
theorem should_ignore_characterization (cfg : SyncConfig) (rel : SPath)
    (hv : ValidSegs rel) (hne : rel ≠ []) :
    should_ignore cfg (cfg.localRoot ++ rel)
        = some (decide (∃ pat ∈ cfg.ignorePatterns, matchesSpec pat rel)) ∧
      ∀ pats2 : List Str, cfg.ignorePatterns.Perm pats2 →
        should_ignore (SyncConfig.mk cfg.localRoot cfg.remotePath pats2
            cfg.autoUpload cfg.autoDelete) (cfg.localRoot ++ rel)
          = should_ignore cfg (cfg.localRoot ++ rel) := by
  have hsplit := relStr_split rel hv hne
  constructor
  · rw [should_ignore, pyRelativeTo_append, Option.map_some']
    rw [ignoreLoop_eq_decide rel cfg.ignorePatterns hsplit]
  · intro pats2 hperm
    rw [should_ignore, should_ignore]
    simp only [pyRelativeTo_append, Option.map_some']
    rw [ignoreLoop_eq_decide rel pats2 hsplit,
      ignoreLoop_eq_decide rel cfg.ignorePatterns hsplit]
    have : (∃ pat ∈ pats2, matchesSpec pat rel) ↔
        ∃ pat ∈ cfg.ignorePatterns, matchesSpec pat rel := by
      constructor
      · rintro ⟨q, hq, hm⟩
        exact ⟨q, hperm.mem_iff.mpr hq, hm⟩
      · rintro ⟨q, hq, hm⟩
        exact ⟨q, hperm.mem_iff.mp hq, hm⟩
    simp [this]

/-- Witness for C4 with root `/r`, patterns `[".git", "*.pyc"]` and the
relative path `src/a.pyc`. -/
theorem should_ignore_characterization_witness :
    should_ignore (SyncConfig.mk ["r".toList] "/s".toList
          [".git".toList, "*.pyc".toList] true true)
        (["r".toList] ++ ["src".toList, "a.pyc".toList])
      = some (decide (∃ pat ∈ [".git".toList, "*.pyc".toList],
          matchesSpec pat ["src".toList, "a.pyc".toList])) ∧
    ∀ pats2 : List Str, ([".git".toList, "*.pyc".toList] : List Str).Perm pats2 →
      should_ignore (SyncConfig.mk ["r".toList] "/s".toList pats2 true true)
          (["r".toList] ++ ["src".toList, "a.pyc".toList])
        = should_ignore (SyncConfig.mk ["r".toList] "/s".toList
            [".git".toList, "*.pyc".toList] true true)
          (["r".toList] ++ ["src".toList, "a.pyc".toList]) :=
  should_ignore_characterization
    (SyncConfig.mk ["r".toList] "/s".toList [".git".toList, "*.pyc".toList] true true)
    ["src".toList, "a.pyc".toList] (by decide) (by decide)

/-- C3: translating a local path under the local root to its remote path
(`get_remote_path`) and translating the result back with the download
direction (`download_to_local`) restores the original local path string. -/
theorem remote_local_roundTrip (pats : List Str) (au ad : Bool) (L R rel : SPath)
    (hL : ValidSegs L) (hR : ValidSegs R) (hrel : ValidSegs rel) (hne : rel ≠ []) :
    ∃ rp, get_remote_path (SyncConfig.mk L (renderAbs R) pats au ad) (L ++ rel) = some rp ∧
      download_to_local (renderAbs R) (renderAbs L) rp = renderAbs (L ++ rel) := by
  have hrelS : relStr rel = joinSep rel := by rw [relStr, if_neg hne]
  have hheadrel : (joinSep rel).head? ≠ some sep := joinSep_head_ne_sep rel hrel hne
  have hstrip : (sep :: joinSep rel).dropWhile (fun c => c == sep) = joinSep rel := by
    rw [List.dropWhile_cons]
    simp only [beq_self_eq_true, if_true]
    exact dropWhile_head_ne _ hheadrel
  have hgoal : ∀ rp : Str,
      (rp.drop (renderAbs R).length).dropWhile (fun c => c == sep) = joinSep rel →
      download_to_local (renderAbs R) (renderAbs L) rp = renderAbs (L ++ rel) := by
    intro rp hdrop
    rw [download_to_local, hdrop, pyJoinLocal, parseParts_renderAbs L hL,
      parseParts_joinSep rel hrel]
  refine ⟨osJoin (renderAbs R) (relStr rel), ?_, ?_⟩
  · rw [get_remote_path, pyRelativeTo_append, Option.map_some']
  · rw [hrelS]
    have hbhead : ¬(joinSep rel).head? = some sep := hheadrel
    by_cases hRnil : R = []
    · subst hRnil
      have hjoin : osJoin (renderAbs ([] : SPath)) (joinSep rel) = sep :: joinSep rel := by
        rw [osJoin]
        rw [if_neg hbhead]
        have hlast : (renderAbs ([] : SPath)).getLast? = some sep := by
          simp [renderAbs, joinSep]
        rw [if_pos (Or.inr hlast)]
        simp [renderAbs, joinSep]
      rw [hjoin]
      refine hgoal _ ?_
      have hdrop1 : (sep :: joinSep rel).drop (renderAbs ([] : SPath)).length
          = joinSep rel := by
        simp [renderAbs, joinSep]
      rw [hdrop1]
      exact dropWhile_head_ne _ hheadrel
    · have hRne : R ≠ [] := hRnil
      have hlast : ¬(renderAbs R).getLast? = some sep := by
        rw [renderAbs, List.getLast?_cons]
        cases hl : (joinSep R).getLast? with
        | none => exact absurd (by simpa using hl) (joinSep_ne_nil R hR hRne)
        | some c =>
          have := joinSep_getLast_ne_sep R hR hRne
          rw [hl] at this
          simpa using fun e => this (by rw [e])
      have hjoin : osJoin (renderAbs R) (joinSep rel)
          = renderAbs R ++ sep :: joinSep rel := by
        rw [osJoin, if_neg hbhead]
        have habs : ¬(renderAbs R = [] ∨ (renderAbs R).getLast? = some sep) := by
          rintro (h1 | h2)
          · exact absurd h1 (by simp [renderAbs])
          · exact hlast h2
        rw [if_neg habs]
        simp
      rw [hjoin]
      refine hgoal _ ?_
      have hdropR : (renderAbs R ++ sep :: joinSep rel).drop (renderAbs R).length
          = sep :: joinSep rel := List.drop_left _ _
      rw [hdropR]
      exact hstrip

/-- Witness for C3 with local root `/p`, remote root `/s/p` and relative
path `d/a.txt`. -/
theorem remote_local_roundTrip_witness :
    ∃ rp, get_remote_path (SyncConfig.mk ["p".toList]
          (renderAbs ["s".toList, "p".toList]) [] true true)
        (["p".toList] ++ ["d".toList, "a.txt".toList]) = some rp ∧
      download_to_local (renderAbs ["s".toList, "p".toList]) (renderAbs ["p".toList]) rp
        = renderAbs (["p".toList] ++ ["d".toList, "a.txt".toList]) :=
  remote_local_roundTrip [] true true ["p".toList] ["s".toList, "p".toList]
    ["d".toList, "a.txt".toList] (by decide) (by decide) (by decide) (by decide)

/-! ### Dict lemmas -/

theorem dictGet_eq_none_of (k : SPath) (m : PMap) (h : ∀ e ∈ m, e.1 ≠ k) :
    dictGet k m = none := by
  induction m with
  | nil => rfl
  | cons e rest ih =>
    rw [dictGet, if_neg (h e (by simp))]
    exact ih fun e' he' => h e' (List.mem_cons_of_mem _ he')

theorem dictGet_dictSet_self (k : SPath) (v : Time) (m : PMap) :
    dictGet k (dictSet k v m) = some v := by
  induction m with
  | nil => simp [dictSet, dictGet]
  | cons e rest ih =>
    by_cases he : e.1 = k
    · simp [dictSet, he, dictGet]
    · simp [dictSet, he, dictGet, ih]

theorem countKey_eq_zero (k : SPath) (m : PMap) (h : ∀ e ∈ m, e.1 ≠ k) :
    countKey k m = 0 := by
  rw [countKey, List.length_eq_zero, List.filter_eq_nil_iff]
  intro e he
  simp [h e he]

theorem countKey_dictSet (k : SPath) (v : Time) (m : PMap)
    (h : (m.map Prod.fst).Nodup) : countKey k (dictSet k v m) = 1 := by
  induction m with
  | nil => simp [dictSet, countKey]
  | cons e rest ih =>
    have hrest : (rest.map Prod.fst).Nodup := (List.nodup_cons.mp h).2
    by_cases he : e.1 = k
    · have hnk : e.1 ∉ rest.map Prod.fst := (List.nodup_cons.mp h).1
      have hzero : countKey k rest = 0 := by
        refine countKey_eq_zero k rest fun e' he' hk => ?_
        exact hnk (by rw [he, ← hk]; exact List.mem_map_of_mem _ he')
      rw [dictSet, if_pos he, countKey, List.filter_cons, if_pos (by simp)]
      simp only [List.length_cons]
      rw [countKey] at hzero
      omega
    · rw [dictSet, if_neg he, countKey, List.filter_cons, if_neg (by simp [he])]
      exact ih hrest

theorem mem_keys_dictSet (k : SPath) (v : Time) (m : PMap) (x : SPath)
    (hx : x ∈ (dictSet k v m).map Prod.fst) : x = k ∨ x ∈ m.map Prod.fst := by
  induction m with
  | nil => simpa [dictSet] using hx
  | cons e rest ih =>
    by_cases he : e.1 = k
    · rw [dictSet, if_pos he] at hx
      rcases List.mem_map.mp hx with ⟨p, hp, rfl⟩
      rcases List.mem_cons.mp hp with rfl | hp2
      · exact Or.inl rfl
      · exact Or.inr (by simp; exact Or.inr ⟨p.2, by simpa using hp2⟩)
    · rw [dictSet, if_neg he] at hx
      rcases List.mem_map.mp hx with ⟨p, hp, rfl⟩
      rcases List.mem_cons.mp hp with rfl | hp2
      · exact Or.inr (by simp)
      · rcases ih (List.mem_map_of_mem _ hp2) with h1 | h2
        · exact Or.inl h1
        · exact Or.inr (List.mem_cons_of_mem _ h2)

theorem nodup_keys_dictSet (k : SPath) (v : Time) (m : PMap)
    (h : (m.map Prod.fst).Nodup) : ((dictSet k v m).map Prod.fst).Nodup := by
  induction m with
  | nil => simp [dictSet]
  | cons e rest ih =>
    have hnk : e.1 ∉ rest.map Prod.fst := (List.nodup_cons.mp h).1
    have hrest : (rest.map Prod.fst).Nodup := (List.nodup_cons.mp h).2
    by_cases he : e.1 = k
    · rw [dictSet, if_pos he]
      simp only [List.map_cons, List.nodup_cons]
      exact ⟨by rw [← he]; exact hnk, hrest⟩
    · rw [dictSet, if_neg he]
      simp only [List.map_cons, List.nodup_cons]
      refine ⟨?_, ih hrest⟩
      intro hmem
      rcases mem_keys_dictSet k v rest e.1 hmem with h1 | h2
      · exact he h1
      · exact hnk h2

theorem dictGet_dictDel_self (k : SPath) (m : PMap)
    (h : (m.map Prod.fst).Nodup) : dictGet k (dictDel k m) = none := by
  induction m with
  | nil => rfl
  | cons e rest ih =>
    have hnk : e.1 ∉ rest.map Prod.fst := (List.nodup_cons.mp h).1
    have hrest : (rest.map Prod.fst).Nodup := (List.nodup_cons.mp h).2
    by_cases he : e.1 = k
    · rw [dictDel, if_pos he]
      refine dictGet_eq_none_of k rest fun e' he' hk => ?_
      exact hnk (by rw [he, ← hk]; exact List.mem_map_of_mem _ he')
    · rw [dictDel, if_neg he, dictGet, if_neg he]
      exact ih hrest

theorem dictGet_mem (k : SPath) (v : Time) (m : PMap) (h : dictGet k m = some v) :
    (k, v) ∈ m := by
  induction m with
  | nil => exact absurd h (by simp [dictGet])
  | cons e rest ih =>
    obtain ⟨a, b⟩ := e
    by_cases ha : a = k
    · rw [dictGet] at h
      simp only [ha, if_pos rfl] at h
      have hb : b = v := by simpa using h
      subst ha
      subst hb
      simp
    · rw [dictGet, if_neg (by simpa using ha)] at h
      exact List.mem_cons_of_mem _ (ih h)

theorem filter_singleton_of (k : SPath) (t : Time) (m : PMap)
    (hc : countKey k m = 1) (hg : dictGet k m = some t) :
    m.filter (fun e => decide (e.1 = k)) = [(k, t)] := by
  induction m with
  | nil => exact absurd hc (by simp [countKey])
  | cons e rest ih =>
    obtain ⟨a, b⟩ := e
    by_cases ha : a = k
    · have hb : b = t := by
        rw [dictGet, if_pos (by simpa using ha)] at hg
        simpa using hg
      have hzero : countKey k rest = 0 := by
        rw [countKey, List.filter_cons, if_pos (by simpa using ha)] at hc
        rw [countKey]
        simpa using hc
      have hnil : rest.filter (fun e => decide (e.1 = k)) = [] := by
        rw [countKey] at hzero
        exact List.length_eq_zero.mp hzero
      rw [List.filter_cons, if_pos (by simpa using ha), hnil, ha, hb]
    · have hc2 : countKey k rest = 1 := by
        rw [countKey, List.filter_cons, if_neg (by simpa using ha)] at hc
        exact hc
      have hg2 : dictGet k rest = some t := by
        rw [dictGet, if_neg (by simpa using ha)] at hg
        exact hg
      rw [List.filter_cons, if_neg (by simpa using ha)]
      exact ih hc2 hg2

/-! ### C6: the download mark guards scheduling -/

/-- C6: while a download mark is live (strictly before `T + 10.0`) a
change notification leaves the handler state untouched (no pending entry,
mark kept); after `T + 10.0` the notification schedules the upload
normally and the expired mark is evicted by that lookup. -/
theorem download_mark_guard (cfg : SyncConfig) (st : HandlerState) (P : SPath) (T : Time)
    (hau : cfg.autoUpload = true)
    (hig : should_ignore cfg P = some false)
    (hmark : dictGet P st.downloaded = some T) :
    (∀ now : Time, now < T + 10 → schedule_upload cfg st P now = some st) ∧
    (∀ now : Time, T + 10 < now →
      schedule_upload cfg st P now
        = some (HandlerState.mk (dictSet P now st.pending) (dictDel P st.downloaded))) := by
  constructor
  · intro now hnow
    have hrec : isRecentlyDownloaded P now st.downloaded = (true, st.downloaded) := by
      rw [isRecentlyDownloaded, hmark]
      have h10 : now - T < 10 := by linarith
      simp [h10]
    rw [schedule_upload, if_neg (by simp [hau]), hig, hrec]
  · intro now hnow
    have hrec : isRecentlyDownloaded P now st.downloaded
        = (false, dictDel P st.downloaded) := by
      rw [isRecentlyDownloaded, hmark]
      have h10 : ¬now - T < 10 := by linarith
      simp [h10]
    rw [schedule_upload, if_neg (by simp [hau]), hig, hrec]

/-- Witness for C6: mark at time 0, change at time 5 (suppressed) and at
time 11 (scheduled, mark evicted). -/
theorem download_mark_guard_witness :
    schedule_upload (SyncConfig.mk [] [] [] true true)
        (HandlerState.mk [] [(["a".toList], 0)]) ["a".toList] 5
      = some (HandlerState.mk [] [(["a".toList], 0)]) ∧
    schedule_upload (SyncConfig.mk [] [] [] true true)
        (HandlerState.mk [] [(["a".toList], 0)]) ["a".toList] 11
      = some (HandlerState.mk [(["a".toList], 11)] []) :=
  And.intro
    ((download_mark_guard (SyncConfig.mk [] [] [] true true)
        (HandlerState.mk [] [(["a".toList], 0)]) ["a".toList] 0 rfl (by decide)
        (by decide)).1 5 (by norm_num))
    ((download_mark_guard (SyncConfig.mk [] [] [] true true)
        (HandlerState.mk [] [(["a".toList], 0)]) ["a".toList] 0 rfl (by decide)
        (by decide)).2 11 (by norm_num))

/-! ### Drain lemmas -/

theorem drainScan_eq (now : Time) (m : PMap) :
    drainScan now m
      = ((m.filter (fun e => decide ((1 : ℚ)/2 ≤ now - e.2))).map Prod.fst,
          m.filter (fun e => !decide ((1 : ℚ)/2 ≤ now - e.2))) := by
  induction m with
  | nil => rfl
  | cons e rest ih =>
    simp only [drainScan, ih]
    by_cases hr : (1 : ℚ)/2 ≤ now - e.2
    · rw [if_pos hr, List.filter_cons, List.filter_cons, if_pos (by simpa using hr),
        if_neg (by simpa using hr), List.map_cons]
    · rw [if_neg hr, List.filter_cons, List.filter_cons, if_neg (by simpa using hr),
        if_pos (by simpa using hr)]

theorem get_remote_path_isSome (cfg : SyncConfig) (p : SPath) :
    (get_remote_path cfg p).isSome = (pyRelativeTo p cfg.localRoot).isSome := by
  cases h : pyRelativeTo p cfg.localRoot <;> simp [get_remote_path, h]

theorem uploadsFor_some (cfg : SyncConfig) (ex : SPath → Bool) (l : List SPath)
    (h : ∀ p ∈ l, ex p = true → (pyRelativeTo p cfg.localRoot).isSome = true) :
    ∃ ups, uploadsFor cfg ex l = some ups ∧ ups.map Prod.fst = l.filter ex := by
  induction l with
  | nil => exact ⟨[], rfl, rfl⟩
  | cons p ps ih =>
    obtain ⟨ups, hups, hmap⟩ := ih fun q hq => h q (List.mem_cons_of_mem _ hq)
    by_cases hex : ex p = true
    · have hrel : (get_remote_path cfg p).isSome = true := by
        rw [get_remote_path_isSome]
        exact h p (by simp) hex
      obtain ⟨r, hr⟩ := Option.isSome_iff_exists.mp hrel
      refine ⟨(p, r) :: ups, ?_, ?_⟩
      · rw [uploadsFor, if_pos hex, hr, hups]
        rfl
      · rw [List.map_cons, hmap, List.filter_cons, if_pos hex]
    · refine ⟨ups, ?_, ?_⟩
      · rw [uploadsFor, if_neg hex]
        exact hups
      · rw [hmap, List.filter_cons, if_neg hex]

theorem uploadsFor_pairs (cfg : SyncConfig) (ex : SPath → Bool) :
    ∀ (l : List SPath) (ups : List (SPath × Str)) (p : SPath) (r : Str),
      uploadsFor cfg ex l = some ups → (p, r) ∈ ups → get_remote_path cfg p = some r := by
  intro l
  induction l with
  | nil =>
    intro ups p r h hm
    rw [uploadsFor] at h
    obtain rfl := Option.some.inj h
    simp at hm
  | cons q qs ih =>
    intro ups p r h hm
    rw [uploadsFor] at h
    by_cases hex : ex q = true
    · rw [if_pos hex] at h
      cases hgr : get_remote_path cfg q with
      | none => rw [hgr] at h; simp at h
      | some r0 =>
        rw [hgr] at h
        cases hu : uploadsFor cfg ex qs with
        | none => rw [hu] at h; simp at h
        | some u =>
          rw [hu] at h
          simp only [Option.map_some'] at h
          obtain rfl := Option.some.inj h
          rcases List.mem_cons.mp hm with hpq | hmem
          · rw [Prod.mk.injEq] at hpq
            obtain ⟨rfl, rfl⟩ := hpq
            exact hgr
          · exact ih u p r hu hmem
    · rw [if_neg hex] at h
      exact ih ups p r h hm

theorem filter_swap {α : Type} (p q : α → Bool) (l : List α) :
    (l.filter q).filter p = (l.filter p).filter q := by
  rw [List.filter_filter, List.filter_filter]
  exact List.filter_congr fun a _ => by rw [Bool.and_comm]

/-! ### C7: exact drain behaviour -/

/-- C7: draining at time `now` succeeds, removes exactly the entries at
least `0.5` old, keeps the younger ones pending, leaves the mark table
alone, and issues uploads exactly for the drained paths that still exist
on disk — a drained path missing from disk is skipped silently and stays
removed. -/
theorem drain_exact (cfg : SyncConfig) (st : HandlerState) (now : Time) (ex : SPath → Bool)
    (hok : ∀ q tq, (q, tq) ∈ st.pending → ex q = true →
      (pyRelativeTo q cfg.localRoot).isSome = true) :
    ∃ ups st2, process_pending_uploads cfg st now ex = some (ups, st2) ∧
      st2.pending = st.pending.filter (fun e => !decide ((1 : ℚ)/2 ≤ now - e.2)) ∧
      st2.downloaded = st.downloaded ∧
      ups.map Prod.fst
        = ((st.pending.filter (fun e => decide ((1 : ℚ)/2 ≤ now - e.2))).map
            Prod.fst).filter ex := by
  have hok2 : ∀ p ∈ (drainScan now st.pending).1, ex p = true →
      (pyRelativeTo p cfg.localRoot).isSome = true := by
    intro p hp hexp
    rw [drainScan_eq] at hp
    rcases List.mem_map.mp hp with ⟨e, he, rfl⟩
    exact hok e.1 e.2 (List.mem_of_mem_filter he) hexp
  obtain ⟨ups, hups, hmap⟩ := uploadsFor_some cfg ex _ hok2
  refine ⟨ups, HandlerState.mk (drainScan now st.pending).2 st.downloaded, ?_, ?_, rfl, ?_⟩
  · rw [process_pending_uploads, hups]
  · show (drainScan now st.pending).2 = _
    rw [drainScan_eq]
  · rw [hmap, drainScan_eq]

/-- Witness for C7: pending `r/a` (old) and `r/b` (young) at time `7/10`,
with only `r/a` existing on disk. -/
theorem drain_exact_witness :
    ∃ ups st2, process_pending_uploads (SyncConfig.mk ["r".toList] "/s".toList [] true true)
        (HandlerState.mk [(["r".toList, "a".toList], 0), (["r".toList, "b".toList], 1)] [])
        (7/10) (fun q => decide (q = ["r".toList, "a".toList]))
      = some (ups, st2) ∧
      st2.pending = ([(["r".toList, "a".toList], 0), (["r".toList, "b".toList], 1)] :
          PMap).filter (fun e => !decide ((1 : ℚ)/2 ≤ 7/10 - e.2)) ∧
      st2.downloaded = [] ∧
      ups.map Prod.fst
        = ((([(["r".toList, "a".toList], 0), (["r".toList, "b".toList], 1)] :
            PMap).filter (fun e => decide ((1 : ℚ)/2 ≤ 7/10 - e.2))).map
              Prod.fst).filter (fun q => decide (q = ["r".toList, "a".toList])) := by
  refine drain_exact (SyncConfig.mk ["r".toList] "/s".toList [] true true)
      (HandlerState.mk [(["r".toList, "a".toList], 0), (["r".toList, "b".toList], 1)] [])
      (7/10) (fun q => decide (q = ["r".toList, "a".toList])) ?_
  intro q tq hmem hex
  rcases List.mem_cons.mp hmem with h1 | h2
  · rw [Prod.mk.injEq] at h1
    obtain ⟨rfl, rfl⟩ := h1
    decide
  · rcases List.mem_cons.mp h2 with h3 | h4
    · rw [Prod.mk.injEq] at h3
      obtain ⟨rfl, rfl⟩ := h3
      decide
    · simp at h4

/-! ### C10: the guard is not consulted at drain time -/

/-- C10: marking a path as downloaded after it was already scheduled does
not remove the pending entry, and the next drain past its readiness still
issues the upload for it. -/
theorem mark_after_schedule_still_uploads (cfg : SyncConfig) (st : HandlerState)
    (P : SPath) (t tm now : Time) (ex : SPath → Bool)
    (hget : dictGet P st.pending = some t)
    (hready : (1 : ℚ)/2 ≤ now - t)
    (hex : ex P = true)
    (hok : ∀ q tq, (q, tq) ∈ st.pending → ex q = true →
      (pyRelativeTo q cfg.localRoot).isSome = true) :
    (mark_as_downloaded P tm st).pending = st.pending ∧
    ∃ ups st2 rp, process_pending_uploads cfg (mark_as_downloaded P tm st) now ex
        = some (ups, st2) ∧ get_remote_path cfg P = some rp ∧ (P, rp) ∈ ups := by
  have hok2 : ∀ p ∈ (drainScan now st.pending).1, ex p = true →
      (pyRelativeTo p cfg.localRoot).isSome = true := by
    intro p hp hexp
    rw [drainScan_eq] at hp
    rcases List.mem_map.mp hp with ⟨e, he, rfl⟩
    exact hok e.1 e.2 (List.mem_of_mem_filter he) hexp
  obtain ⟨ups, hups, hmap⟩ := uploadsFor_some cfg ex _ hok2
  have hmem : (P, t) ∈ st.pending := dictGet_mem P t st.pending hget
  have hPmem : P ∈ ups.map Prod.fst := by
    rw [hmap, drainScan_eq]
    refine List.mem_filter.mpr ⟨?_, hex⟩
    exact List.mem_map.mpr ⟨(P, t), List.mem_filter.mpr ⟨hmem, by simpa using hready⟩, rfl⟩
  rcases List.mem_map.mp hPmem with ⟨e, he, hfst⟩
  obtain ⟨p0, r0⟩ := e
  have hp0 : p0 = P := hfst
  rw [hp0] at he
  refine ⟨rfl, ups,
    HandlerState.mk (drainScan now st.pending).2 (dictSet P tm st.downloaded), r0, ?_, ?_, ?_⟩
  · simp only [process_pending_uploads, mark_as_downloaded, hups]
  · exact uploadsFor_pairs cfg ex _ ups P r0 hups he
  · exact he

/-- Witness for C10: `r/a` pending since time 0, marked as downloaded at
time `1/10`, drained at time 1. -/
theorem mark_after_schedule_still_uploads_witness :
    (mark_as_downloaded ["r".toList, "a".toList] (1/10)
        (HandlerState.mk [(["r".toList, "a".toList], 0)] [])).pending
      = (HandlerState.mk ([(["r".toList, "a".toList], 0)] : PMap) []).pending ∧
    ∃ ups st2 rp, process_pending_uploads (SyncConfig.mk ["r".toList] "/s".toList [] true true)
        (mark_as_downloaded ["r".toList, "a".toList] (1/10)
          (HandlerState.mk [(["r".toList, "a".toList], 0)] [])) 1 (fun _ => true)
      = some (ups, st2) ∧
      get_remote_path (SyncConfig.mk ["r".toList] "/s".toList [] true true)
        ["r".toList, "a".toList] = some rp ∧
      (["r".toList, "a".toList], rp) ∈ ups := by
  refine mark_after_schedule_still_uploads (SyncConfig.mk ["r".toList] "/s".toList [] true true)
      (HandlerState.mk [(["r".toList, "a".toList], 0)] []) ["r".toList, "a".toList]
      0 (1/10) 1 (fun _ => true) (by decide) (by norm_num) rfl ?_
  intro q tq hmem hex
  rcases List.mem_cons.mp hmem with h1 | h2
  · rw [Prod.mk.injEq] at h1
    obtain ⟨rfl, rfl⟩ := h1
    decide
  · simp at h2

/-! ### C5: debounce coalescing -/

theorem schedule_upload_active (cfg : SyncConfig) (st : HandlerState) (P : SPath) (now : Time)
    (hau : cfg.autoUpload = true) (hig : should_ignore cfg P = some false)
    (hnr : (isRecentlyDownloaded P now st.downloaded).1 = false) :
    schedule_upload cfg st P now
      = some (HandlerState.mk (dictSet P now st.pending)
          (isRecentlyDownloaded P now st.downloaded).2) := by
  rw [schedule_upload, if_neg (by simp [hau]), hig]
  rcases hrd : isRecentlyDownloaded P now st.downloaded with ⟨b, d⟩
  rw [hrd] at hnr
  have hb : b = false := hnr
  subst hb
  rfl

theorem notRecent_mono (P : SPath) (t1 t2 : Time) (d : PMap)
    (hnod : (d.map Prod.fst).Nodup)
    (h : (isRecentlyDownloaded P t1 d).1 = false) :
    isRecentlyDownloaded P t2 (isRecentlyDownloaded P t1 d).2
      = (false, (isRecentlyDownloaded P t1 d).2) := by
  cases hget : dictGet P d with
  | none =>
    have h2 : isRecentlyDownloaded P t1 d = (false, d) := by
      rw [isRecentlyDownloaded, hget]
    rw [h2]
    show isRecentlyDownloaded P t2 d = (false, d)
    rw [isRecentlyDownloaded, hget]
  | some T =>
    by_cases hT : t1 - T < 10
    · exfalso
      have h2 : isRecentlyDownloaded P t1 d = (true, d) := by
        rw [isRecentlyDownloaded, hget]
        simp [hT]
      rw [h2] at h
      simp at h
    · have h2 : isRecentlyDownloaded P t1 d = (false, dictDel P d) := by
        rw [isRecentlyDownloaded, hget]
        simp [hT]
      rw [h2]
      show isRecentlyDownloaded P t2 (dictDel P d) = (false, dictDel P d)
      rw [isRecentlyDownloaded, dictGet_dictDel_self P d hnod]

theorem length_filter_pairs (ups : List (SPath × Str)) (P : SPath) :
    (ups.filter (fun e => decide (e.1 = P))).length
      = ((ups.map Prod.fst).filter (fun q => decide (q = P))).length := by
  induction ups with
  | nil => rfl
  | cons e rest ih =>
    rw [List.map_cons, List.filter_cons, List.filter_cons]
    by_cases hp : decide (e.1 = P) = true
    · rw [if_pos hp, if_pos hp, List.length_cons, List.length_cons, ih]
    · rw [if_neg hp, if_neg hp, ih]

theorem filter_fst_eq_map (l : PMap) (P : SPath) :
    (l.map Prod.fst).filter (fun q => decide (q = P))
      = (l.filter (fun e => decide (e.1 = P))).map Prod.fst := by
  induction l with
  | nil => rfl
  | cons e rest ih =>
    rw [List.map_cons, List.filter_cons, List.filter_cons]
    by_cases hp : decide (e.1 = P) = true
    · rw [if_pos hp, if_pos hp, List.map_cons, ih]
    · rw [if_neg hp, if_neg hp, ih]

theorem drained_filter_count (pend : PMap) (P : SPath) (t2 now : Time) (ex : SPath → Bool)
    (hexP : ex P = true)
    (hc : countKey P pend = 1) (hg : dictGet P pend = some t2)
    (ups : List (SPath × Str))
    (hmap : ups.map Prod.fst = (drainScan now pend).1.filter ex) :
    (ups.filter (fun e => decide (e.1 = P))).length
      = if (1 : ℚ)/2 ≤ now - t2 then 1 else 0 := by
  have hsingle := filter_singleton_of P t2 pend hc hg
  rw [length_filter_pairs ups P, hmap, filter_swap, drainScan_eq]
  show (((((pend.filter (fun e => decide ((1 : ℚ)/2 ≤ now - e.2))).map Prod.fst).filter
      (fun q => decide (q = P))).filter ex).length)
    = if (1 : ℚ)/2 ≤ now - t2 then 1 else 0
  rw [filter_fst_eq_map, filter_swap (fun e => decide (e.1 = P))
      (fun e => decide ((1 : ℚ)/2 ≤ now - e.2)) pend, hsingle]
  by_cases hready : (1 : ℚ)/2 ≤ now - t2
  · rw [if_pos hready]
    have hkeep : ([(P, t2)] : PMap).filter (fun e => decide ((1 : ℚ)/2 ≤ now - e.2))
        = [(P, t2)] := by
      rw [List.filter_cons, if_pos (by simpa using hready)]
      rfl
    rw [hkeep]
    simp [hexP]
  · rw [if_neg hready]
    have hdrop : ([(P, t2)] : PMap).filter (fun e => decide ((1 : ℚ)/2 ≤ now - e.2))
        = [] := by
      rw [List.filter_cons, if_neg (by simpa using hready)]
      rfl
    rw [hdrop]
    rfl

/-- C5: scheduling the same path twice within the quiet period leaves
exactly one pending entry for it, carrying the later time, and a
subsequent drain issues exactly one upload for it, with readiness
computed from the most recent schedule time. -/
theorem schedule_twice_coalesces (cfg : SyncConfig) (st : HandlerState) (P : SPath)
    (t1 t2 : Time)
    (hnp : (st.pending.map Prod.fst).Nodup)
    (hnd : (st.downloaded.map Prod.fst).Nodup)
    (hau : cfg.autoUpload = true)
    (hig : should_ignore cfg P = some false)
    (hnr : (isRecentlyDownloaded P t1 st.downloaded).1 = false)
    (hle : t1 ≤ t2) (hwin : t2 - t1 < (1 : ℚ)/2) :
    ∃ st1 st2, schedule_upload cfg st P t1 = some st1 ∧
      schedule_upload cfg st1 P t2 = some st2 ∧
      countKey P st2.pending = 1 ∧ dictGet P st2.pending = some t2 ∧
      ∀ (now : Time) (ex : SPath → Bool), ex P = true →
        (∀ q tq, (q, tq) ∈ st2.pending → ex q = true →
          (pyRelativeTo q cfg.localRoot).isSome = true) →
        ∃ ups st3, process_pending_uploads cfg st2 now ex = some (ups, st3) ∧
          (ups.filter (fun e => decide (e.1 = P))).length
            = if (1 : ℚ)/2 ≤ now - t2 then 1 else 0 := by
  have hs1 := schedule_upload_active cfg st P t1 hau hig hnr
  have hmono := notRecent_mono P t1 t2 st.downloaded hnd hnr
  have hnr2 : (isRecentlyDownloaded P t2
      (HandlerState.mk (dictSet P t1 st.pending)
        (isRecentlyDownloaded P t1 st.downloaded).2).downloaded).1 = false := by
    show (isRecentlyDownloaded P t2 (isRecentlyDownloaded P t1 st.downloaded).2).1 = false
    rw [hmono]
  have hs2 := schedule_upload_active cfg
    (HandlerState.mk (dictSet P t1 st.pending)
      (isRecentlyDownloaded P t1 st.downloaded).2) P t2 hau hig hnr2
  have hs2' : schedule_upload cfg
      (HandlerState.mk (dictSet P t1 st.pending)
        (isRecentlyDownloaded P t1 st.downloaded).2) P t2
      = some (HandlerState.mk (dictSet P t2 (dictSet P t1 st.pending))
          (isRecentlyDownloaded P t1 st.downloaded).2) := by
    rw [hs2]
    show some (HandlerState.mk (dictSet P t2 (dictSet P t1 st.pending))
        (isRecentlyDownloaded P t2 (isRecentlyDownloaded P t1 st.downloaded).2).2) = _
    rw [hmono]
  refine ⟨_, _, hs1, hs2', ?_, ?_, ?_⟩
  · show countKey P (dictSet P t2 (dictSet P t1 st.pending)) = 1
    exact countKey_dictSet P t2 _ (nodup_keys_dictSet P t1 st.pending hnp)
  · show dictGet P (dictSet P t2 (dictSet P t1 st.pending)) = some t2
    exact dictGet_dictSet_self P t2 _
  · intro now ex hexP hok
    have hok2 : ∀ p ∈ (drainScan now (dictSet P t2 (dictSet P t1 st.pending))).1,
        ex p = true → (pyRelativeTo p cfg.localRoot).isSome = true := by
      intro p hp hexp
      rw [drainScan_eq] at hp
      rcases List.mem_map.mp hp with ⟨e, he, rfl⟩
      exact hok e.1 e.2 (List.mem_of_mem_filter he) hexp
    obtain ⟨ups, hups, hmap⟩ := uploadsFor_some cfg ex _ hok2
    refine ⟨ups, HandlerState.mk
        (drainScan now (dictSet P t2 (dictSet P t1 st.pending))).2
        (isRecentlyDownloaded P t1 st.downloaded).2, ?_, ?_⟩
    · simp only [process_pending_uploads, hups]
    · refine drained_filter_count (dictSet P t2 (dictSet P t1 st.pending)) P t2 now ex
        hexP ?_ ?_ ups hmap
      · exact countKey_dictSet P t2 _ (nodup_keys_dictSet P t1 st.pending hnp)
      · exact dictGet_dictSet_self P t2 _

/-- Witness for C5: path `r/a` scheduled at times 0 and `1/4` from the
empty state, then drained. -/
theorem schedule_twice_coalesces_witness :
    ∃ st1 st2, schedule_upload (SyncConfig.mk ["r".toList] "/s".toList [] true true)
        (HandlerState.mk [] []) ["r".toList, "a".toList] 0 = some st1 ∧
      schedule_upload (SyncConfig.mk ["r".toList] "/s".toList [] true true)
        st1 ["r".toList, "a".toList] (1/4) = some st2 ∧
      countKey ["r".toList, "a".toList] st2.pending = 1 ∧
      dictGet ["r".toList, "a".toList] st2.pending = some (1/4) ∧
      ∀ (now : Time) (ex : SPath → Bool), ex ["r".toList, "a".toList] = true →
        (∀ q tq, (q, tq) ∈ st2.pending → ex q = true →
          (pyRelativeTo q (SyncConfig.mk ["r".toList] "/s".toList [] true
            true).localRoot).isSome = true) →
        ∃ ups st3, process_pending_uploads (SyncConfig.mk ["r".toList] "/s".toList [] true true)
            st2 now ex = some (ups, st3) ∧
          (ups.filter (fun e => decide (e.1 = ["r".toList, "a".toList]))).length
            = if (1 : ℚ)/2 ≤ now - 1/4 then 1 else 0 :=
  schedule_twice_coalesces (SyncConfig.mk ["r".toList] "/s".toList [] true true)
    (HandlerState.mk [] []) ["r".toList, "a".toList] 0 (1/4)
    (by simp) (by simp) rfl (by decide) (by decide) (by norm_num) (by norm_num)

/-! ### C8: the pruned walk uploads exactly the non-ignored files -/

theorem fileKept_single (ig : SPath → Bool) (root : SPath) (n : Str) :
    fileKept ig root [n] = !ig (root ++ [n]) := by
  rw [fileKept, dirsClear, if_pos rfl]
  simp

theorem fileKept_cons (ig : SPath → Bool) (root : SPath) (n : Str) (s : SPath) :
    fileKept ig root (n :: s) = (!ig (root ++ [n]) && fileKept ig (root ++ [n]) s) := by
  cases s with
  | nil =>
    rw [fileKept_single, fileKept, dirsClear, List.append_nil]
    cases hig : ig (root ++ [n]) <;> simp
  | cons d rest =>
    rw [fileKept, fileKept, dirsClear, if_neg (by simp)]
    have happ : root ++ n :: d :: rest = (root ++ [n]) ++ d :: rest := List.append_cons root n (d :: rest)
    rw [happ, Bool.and_assoc]

theorem filesPass_cons_file (ig : SPath → Bool) (root : SPath) (n : Str)
    (rest : List FSTree) :
    filesPass ig root (FSTree.file n :: rest)
      = if ig (root ++ [n]) = true then filesPass ig root rest
        else (root ++ [n]) :: filesPass ig root rest := by
  cases hig : ig (root ++ [n]) with
  | true =>
    rw [if_pos rfl]
    exact List.filterMap_cons_none (by simp [hig])
  | false =>
    rw [if_neg (by simp)]
    exact List.filterMap_cons_some (by simp [hig])

theorem filesPass_cons_dir (ig : SPath → Bool) (root : SPath) (n : Str)
    (c rest : List FSTree) :
    filesPass ig root (FSTree.dir n c :: rest) = filesPass ig root rest :=
  List.filterMap_cons_none (by rfl)

theorem fileNames_cons_file (n : Str) (rest : List FSTree) :
    fileNames (FSTree.file n :: rest) = [n] :: fileNames rest :=
  List.filterMap_cons_some (by rfl)

theorem fileNames_cons_dir (n : Str) (c rest : List FSTree) :
    fileNames (FSTree.dir n c :: rest) = fileNames rest :=
  List.filterMap_cons_none (by rfl)

theorem filesPass_eq (ig : SPath → Bool) (root : SPath) (entries : List FSTree) :
    filesPass ig root entries
      = ((fileNames entries).filter (fileKept ig root)).map (fun s => root ++ s) := by
  induction entries with
  | nil => rfl
  | cons t rest ih =>
    cases t with
    | file n =>
      rw [filesPass_cons_file, fileNames_cons_file, List.filter_cons]
      cases hig : ig (root ++ [n]) with
      | true =>
        rw [if_pos rfl, fileKept_single, hig, if_neg (by simp)]
        exact ih
      | false =>
        rw [if_neg (by simp), fileKept_single, hig, if_pos (by simp), List.map_cons, ← ih]
    | dir n c =>
      rw [filesPass_cons_dir, fileNames_cons_dir]
      exact ih

theorem kept_empty_of_ignored (ig : SPath → Bool) (root : SPath) (n : Str)
    (l : List SPath) (hig : ig (root ++ [n]) = true) :
    (l.map (fun s => n :: s)).filter (fileKept ig root) = [] := by
  rw [List.filter_eq_nil_iff]
  intro a ha
  rcases List.mem_map.mp ha with ⟨s, hs, rfl⟩
  rw [fileKept_cons, hig]
  simp

theorem kept_shift_of_not_ignored (ig : SPath → Bool) (root : SPath) (n : Str)
    (l : List SPath) (hig : ig (root ++ [n]) = false) :
    ((l.map (fun s => n :: s)).filter (fileKept ig root)).map (fun s => root ++ s)
      = (l.filter (fileKept ig (root ++ [n]))).map (fun s => (root ++ [n]) ++ s) := by
  rw [List.filter_map, List.map_map]
  rw [List.filter_congr (fun s _ => by
    show fileKept ig root (n :: s) = fileKept ig (root ++ [n]) s
    rw [fileKept_cons, hig]
    simp)]
  exact List.map_congr_left fun s _ => by
    show root ++ (n :: s) = (root ++ [n]) ++ s
    exact List.append_cons root n s

theorem walkDirs_eq (ig : SPath → Bool) (root : SPath) (entries : List FSTree) :
    walkDirs ig root entries
      = ((subFiles entries).filter (fileKept ig root)).map (fun s => root ++ s) := by
  induction root, entries using walkDirs.induct ig with
  | case1 root =>
    simp [walkDirs, subFiles]
  | case2 root n rest ih =>
    simp only [walkDirs, subFiles]
    exact ih
  | case3 root n c rest ih1 ih2 =>
    simp only [walkDirs, subFiles]
    rw [List.filter_append, List.map_append, ← ih2]
    cases hig : ig (root ++ [n]) with
    | true =>
      rw [if_pos rfl, kept_empty_of_ignored ig root n _ hig]
      rfl
    | false =>
      rw [if_neg (by simp), kept_shift_of_not_ignored ig root n _ hig,
        List.filter_append, List.map_append, ← ih1, ← filesPass_eq, List.append_assoc]

/-- C8: the full upload walks the tree top-down, removes every ignored
directory before descending (so no file under an ignored directory is
visited), and issues exactly one upload for every non-ignored file: the
emitted upload list is exactly the list of the tree's files filtered by
`fileKept` (no ignored ancestor directory and the file itself not
ignored), one entry per file. -/
theorem sync_all_files_uploads_exactly_nonignored (cfg : SyncConfig) (tree : List FSTree) :
    sync_all_files cfg tree
      = ((filesUnder tree).filter
          (fileKept (fun p => decide (should_ignore cfg p = some true)) cfg.localRoot)).map
        (fun s => cfg.localRoot ++ s) := by
  rw [sync_all_files, osWalkUpload, filesUnder, List.filter_append, List.map_append,
    filesPass_eq, walkDirs_eq]

end FileSync
